import Mathlib

/-!
Shallow embedding of the `typescript-docs-verifier` repository.

The embedding follows `src/SnippetCompiler.ts` (the orchestrator, the
diagnostic scrubbing and the line-number recovery), `index.ts` and the
unnamed native-Promise entry point.  External collaborators
(`CodeBlockExtractor`, `PackageInfo`, the ts-node compiler service and the
filesystem) are modelled as an explicit environment of oracles, exactly at
the interface the orchestrator consumes.  JavaScript strings are modelled
as `String` / `List Char`; the regular expressions of the source are
translated into explicit, executable matching functions over `List Char`.
Cooperative concurrency (`Promise.all`) is modelled by an index-preserving
assembly of per-task results under an arbitrary completion schedule.
-/

namespace DocsVerifier

/-! ## Decimal rendering of numeric ids

`SnippetCompiler.compile` builds the temporary file name with JavaScript
string interpolation of a numeric id (`block-${id}.ts`) and
`removeTemporaryFilePaths` interpolates the block index
(`Code Block ${ex.index}`).  Both render the number in decimal, most
significant digit first; `natRepr` is that rendering. -/

/-- Little-endian decimal digits of `n`; `fuel` bounds the recursion and is
always instantiated with a value `≥ n`, so it never runs out. -/
def decDigitsAux : Nat → Nat → List Nat
  | _, 0 => []
  | 0, _ + 1 => []
  | fuel + 1, n + 1 => (n + 1) % 10 :: decDigitsAux fuel ((n + 1) / 10)

/-- Little-endian decimal digits of `n` (empty for `0`). -/
def decDigits (n : Nat) : List Nat := decDigitsAux n n

/-- Value of a little-endian digit list. -/
def decValue (ds : List Nat) : Nat := ds.foldr (fun d acc => d + 10 * acc) 0

theorem decValue_decDigitsAux : ∀ fuel n, n ≤ fuel → decValue (decDigitsAux fuel n) = n := by
  intro fuel
  induction fuel with
  | zero =>
    intro n hn
    interval_cases n
    rfl
  | succ f ih =>
    intro n hn
    cases n with
    | zero => rfl
    | succ m =>
      have hlt : (m + 1) / 10 < m + 1 := Nat.div_lt_self (Nat.succ_pos m) (by norm_num)
      have hle : (m + 1) / 10 ≤ f := by omega
      simp only [decDigitsAux, decValue, List.foldr_cons]
      have := ih ((m + 1) / 10) hle
      simp only [decValue] at this
      rw [this, Nat.mod_add_div]

theorem decValue_decDigits (n : Nat) : decValue (decDigits n) = n :=
  decValue_decDigitsAux n n (Nat.le_refl n)

theorem decDigits_injective : Function.Injective decDigits := by
  intro m n h
  have := decValue_decDigits m
  rw [h, decValue_decDigits] at this
  exact this.symm

theorem decDigitsAux_lt_ten : ∀ fuel n d, d ∈ decDigitsAux fuel n → d < 10 := by
  intro fuel
  induction fuel with
  | zero =>
    intro n d hd
    cases n <;> simp [decDigitsAux] at hd
  | succ f ih =>
    intro n d hd
    cases n with
    | zero => simp [decDigitsAux] at hd
    | succ m =>
      simp only [decDigitsAux, List.mem_cons] at hd
      rcases hd with h | h
      · subst h; exact Nat.mod_lt _ (by norm_num)
      · exact ih _ _ h

theorem decDigits_lt_ten (n d : Nat) (hd : d ∈ decDigits n) : d < 10 :=
  decDigitsAux_lt_ten n n d hd

theorem digitChar_inj_lt : ∀ d, d < 10 → ∀ e, e < 10 → Nat.digitChar d = Nat.digitChar e → d = e := by
  decide

theorem map_digitChar_inj : ∀ ds es : List Nat, (∀ d ∈ ds, d < 10) → (∀ e ∈ es, e < 10) →
    ds.map Nat.digitChar = es.map Nat.digitChar → ds = es := by
  intro ds
  induction ds with
  | nil =>
    intro es _ _ h
    cases es with
    | nil => rfl
    | cons e es => simp at h
  | cons d ds ih =>
    intro es hds hes h
    cases es with
    | nil => simp at h
    | cons e es =>
      simp only [List.map_cons, List.cons.injEq] at h
      have hd : d = e :=
        digitChar_inj_lt d (hds d (by simp)) e (hes e (by simp)) h.1
      have : ds = es :=
        ih es (fun x hx => hds x (by simp [hx])) (fun x hx => hes x (by simp [hx])) h.2
      rw [hd, this]

/-- Decimal rendering of a natural number, as JavaScript `toString` /
template interpolation renders numbers and bigints. -/
def natRepr (n : Nat) : String :=
  if n = 0 then "0" else String.mk ((decDigits n).reverse.map Nat.digitChar)

theorem natRepr_data (n : Nat) (hn : n ≠ 0) :
    (natRepr n).data = (decDigits n).reverse.map Nat.digitChar := by
  simp [natRepr, hn]

theorem decDigits_rev_of_repr_eq_zero (n : Nat) (hn : n ≠ 0)
    (h : (natRepr n).data = ("0" : String).data) : False := by
  rw [natRepr_data n hn] at h
  have h0 : ("0" : String).data = [(0 : Nat)].map Nat.digitChar := by decide
  rw [h0] at h
  have hrev : (decDigits n).reverse = [0] := by
    apply map_digitChar_inj _ _ _ _ h
    · intro d hd
      exact decDigits_lt_ten n d (List.mem_reverse.mp hd)
    · intro e he
      simp at he
      omega
  have hds : decDigits n = [0] := by
    have := congrArg List.reverse hrev
    simpa using this
  have := decValue_decDigits n
  rw [hds] at this
  simp [decValue] at this
  exact hn this.symm

theorem natRepr_injective : Function.Injective natRepr := by
  intro m n h
  have hd : (natRepr m).data = (natRepr n).data := congrArg String.data h
  by_cases hm : m = 0 <;> by_cases hn : n = 0
  · rw [hm, hn]
  · exact (decDigits_rev_of_repr_eq_zero n hn (by rw [← hd, hm]; rfl)).elim
  · exact (decDigits_rev_of_repr_eq_zero m hm (by rw [hd, hn]; rfl)).elim
  · rw [natRepr_data m hm, natRepr_data n hn] at hd
    have : (decDigits m).reverse = (decDigits n).reverse := by
      apply map_digitChar_inj _ _ _ _ hd
      · intro d hdm
        exact decDigits_lt_ten m d (List.mem_reverse.mp hdm)
      · intro e he
        exact decDigits_lt_ten n e (List.mem_reverse.mp he)
    exact decDigits_injective (List.reverse_injective this)

theorem digitChar_is_digit : ∀ d, d < 10 →
    48 ≤ (Nat.digitChar d).toNat ∧ (Nat.digitChar d).toNat ≤ 57 := by
  decide

theorem natRepr_all_digits (n : Nat) :
    ∀ c ∈ (natRepr n).data, 48 ≤ c.toNat ∧ c.toNat ≤ 57 := by
  intro c hc
  by_cases hn : n = 0
  · subst hn
    have h0 : natRepr 0 = "0" := rfl
    rw [h0] at hc
    have : ("0" : String).data = ['0'] := by decide
    rw [this] at hc
    simp at hc
    subst hc
    decide
  · rw [natRepr_data n hn] at hc
    simp only [List.mem_map] at hc
    obtain ⟨d, hd, hdc⟩ := hc
    have hd10 : d < 10 := decDigits_lt_ten n d (List.mem_reverse.mp hd)
    subst hdc
    exact digitChar_is_digit d hd10

/-! ## Data model (`SnippetCompiler.ts`, types `CodeBlock` and
`SnippetCompilationResult`) -/

/-- `CodeBlock` from `SnippetCompiler.ts`: one extracted fenced block. -/
structure CodeBlock where
  file : String
  index : Nat
  snippet : String
  sanitisedCode : String
deriving DecidableEq, Inhabited

/-- The value caught by `testCodeCompilation` after the
`rawError instanceof Error` coercion: either a ts-node `TSError` (carrying
`diagnosticText`) or a plain `Error`.  `props` models the remaining own
enumerable string-valued properties seen by `Object.entries`. -/
inductive RawError where
  | tsError (message : String) (diagnosticText : String) (props : List (String × String))
  | plainError (message : String) (props : List (String × String))
deriving DecidableEq, Inhabited

/-- `SnippetCompilationResult` from `SnippetCompiler.ts`. -/
structure SnippetCompilationResult where
  file : String
  index : Nat
  snippet : String
  linesWithErrors : List Nat
  error : Option RawError
deriving DecidableEq, Inhabited

/-! ## Path scrubbing (`removeTemporaryFilePaths`)

The source applies `message.replace(/(.*)\/compiled-docs\/block-\d+\.ts/g, label)`.
Since `.` does not match a newline, each line is handled independently; on a
line the greedy `(.*)` makes the unique match start at the line's beginning
and swallow everything up to the *last* occurrence of
`/compiled-docs/block-<digits>.ts`, which is replaced by the label.  The
label is the chalk template `{blue ${file}} → {cyan Code Block ${index}}`,
whose textual content is `<file> → Code Block <index>` (colour codes are a
presentation concern; `stripAnsi` removes them again before the line-number
match, so the embedding works with the plain text throughout). -/

/-- ASCII digit test, JavaScript `\d`. -/
def isAsciiDigit (c : Char) : Bool := 48 ≤ c.toNat && c.toNat ≤ 57

/-- Literal part of the scrub pattern before the digits. -/
def compiledDocsPathMarker : List Char := "/compiled-docs/block-".data

theorem compiledDocsPathMarker_chars :
    compiledDocsPathMarker =
      ['/', 'c', 'o', 'm', 'p', 'i', 'l', 'e', 'd', '-', 'd', 'o', 'c', 's',
       '/', 'b', 'l', 'o', 'c', 'k', '-'] := by
  decide

/-- Drop an expected literal from the front of `s`, or fail. -/
def dropLit : List Char → List Char → Option (List Char)
  | [], s => some s
  | _ :: _, [] => none
  | p :: ps, c :: cs => if c = p then dropLit ps cs else none

/-- Maximal run of ASCII digits at the front (greedy `\d*`). -/
def takeDigits : List Char → List Char × List Char
  | [] => ([], [])
  | c :: cs =>
    if isAsciiDigit c then
      let (ds, rest) := takeDigits cs
      (c :: ds, rest)
    else ([], c :: cs)

/-- Match `/compiled-docs/block-\d+\.ts` at the head of `s`; on success
return the remainder after the match. -/
def matchScrubTail (s : List Char) : Option (List Char) :=
  (dropLit compiledDocsPathMarker s).bind fun rest =>
    if (takeDigits rest).1.isEmpty then none
    else dropLit ".ts".data (takeDigits rest).2

/-- Remainder after the occurrence of the scrub pattern with the largest
starting position in `s` (`none` when no suffix of `s` matches).  This is
the match the greedy `(.*)` selects, and the regex scan finds no further
match after it. -/
def lastScrubMatch : List Char → Option (List Char)
  | [] => none
  | c :: cs =>
    match lastScrubMatch cs with
    | some r => some r
    | none => matchScrubTail (c :: cs)

/-- Split on `'\n'`, exactly as JavaScript `String.prototype.split("\n")`. -/
def splitLinesAux (acc : List Char) : List Char → List (List Char)
  | [] => [acc.reverse]
  | c :: cs =>
    if c = '\n' then acc.reverse :: splitLinesAux [] cs
    else splitLinesAux (c :: acc) cs

def splitLines (cs : List Char) : List (List Char) := splitLinesAux [] cs

/-- Rejoin lines with `'\n'` (inverse of `splitLines`). -/
def joinLines : List (List Char) → List Char
  | [] => []
  | [l] => l
  | l :: ls => l ++ '\n' :: joinLines ls

/-- Textual content of the replacement label
`{blue ${ex.file}} → {cyan Code Block ${ex.index}}`. -/
def blockLabel (ex : CodeBlock) : String :=
  ex.file ++ " → Code Block " ++ natRepr ex.index

/-- One line of `String.prototype.replace` with the scrub pattern. -/
def scrubLine (label : List Char) (line : List Char) : List Char :=
  match lastScrubMatch line with
  | some rest => label ++ rest
  | none => line

/-- `SnippetCompiler.removeTemporaryFilePaths`. -/
def removeTemporaryFilePaths (message : String) (ex : CodeBlock) : String :=
  String.mk (joinLines ((splitLines message.data).map (scrubLine (blockLabel ex).data)))

/-- The scrubbing loop of `testCodeCompilation`: the top-level `message` and
every string-valued own property (for a `TSError` this includes
`diagnosticText`) are passed through `removeTemporaryFilePaths`. -/
def scrubError (ex : CodeBlock) : RawError → RawError
  | .tsError message diagnosticText props =>
    .tsError (removeTemporaryFilePaths message ex)
      (removeTemporaryFilePaths diagnosticText ex)
      (props.map fun p => (p.1, removeTemporaryFilePaths p.2 ex))
  | .plainError message props =>
    .plainError (removeTemporaryFilePaths message ex)
      (props.map fun p => (p.1, removeTemporaryFilePaths p.2 ex))

/-! ## Line-number recovery

Per line of `diagnosticText`, the source matches
`/Code Block \d+(?::(\d+):\d+)|(?:\((\d+),\d+\))/` and parses the captured
group (`ttyLineNumber || nonTtyLineNumber`).  The embedding scans for the
leftmost position where either alternative matches, trying the first
alternative first at each position, as the JavaScript engine does. -/

/-- Numeric value of a digit run, as `parseInt(ds, 10)`. -/
def digitsVal (ds : List Char) : Nat :=
  ds.foldl (fun acc c => acc * 10 + (c.toNat - 48)) 0

/-- First alternative `Code Block \d+:(\d+):\d+` at the head of `s`,
returning the captured line number. -/
def matchFormatA (s : List Char) : Option Nat :=
  match dropLit "Code Block ".data s with
  | none => none
  | some r1 =>
    let (ds1, r2) := takeDigits r1
    if ds1.isEmpty then none else
    match r2 with
    | ':' :: r3 =>
      let (ds2, r4) := takeDigits r3
      if ds2.isEmpty then none else
      match r4 with
      | ':' :: r5 =>
        let (ds3, _) := takeDigits r5
        if ds3.isEmpty then none else some (digitsVal ds2)
      | _ => none
    | _ => none

/-- Second alternative `\((\d+),\d+\)` at the head of `s`, returning the
captured line number. -/
def matchFormatB (s : List Char) : Option Nat :=
  match s with
  | '(' :: r1 =>
    let (ds1, r2) := takeDigits r1
    if ds1.isEmpty then none else
    match r2 with
    | ',' :: r3 =>
      let (ds2, r4) := takeDigits r3
      if ds2.isEmpty then none else
      match r4 with
      | ')' :: _ => some (digitsVal ds1)
      | _ => none
    | _ => none
  | _ => none

/-- Leftmost match of the dual-format line-number regex over one line. -/
def findLineNumber : List Char → Option Nat
  | [] => none
  | c :: cs =>
    match matchFormatA (c :: cs) with
    | some n => some n
    | none =>
      match matchFormatB (c :: cs) with
      | some n => some n
      | none => findLineNumber cs

/-- `Set.prototype.add` preserving insertion order. -/
def insertNew (acc : List Nat) (n : Nat) : List Nat :=
  if n ∈ acc then acc else acc ++ [n]

/-- The `linesWithErrors` collection loop of `testCodeCompilation`:
line numbers found per line of `diagnosticText`, deduplicated in order of
first occurrence (`[...new Set(...)]`). -/
def extractLinesWithErrors (diagnosticText : String) : List Nat :=
  ((splitLines diagnosticText.data).filterMap findLineNumber).foldl insertNew []

/-- `SnippetCompiler.testCodeCompilation`, with the outcome of `compile`
(anything the `try` block raised, or success) supplied as an oracle. -/
def testCodeCompilation (outcome : Option RawError) (ex : CodeBlock) :
    SnippetCompilationResult :=
  match outcome with
  | none =>
    { file := ex.file
      index := ex.index
      snippet := ex.snippet
      linesWithErrors := []
      error := none }
  | some rawError =>
    let error := scrubError ex rawError
    let linesWithErrors :=
      match error with
      | .tsError _ diagnosticText _ => extractLinesWithErrors diagnosticText
      | .plainError _ _ => []
    { file := ex.file
      index := ex.index
      snippet := ex.snippet
      linesWithErrors := linesWithErrors
      error := some error }

/-! ## The orchestrator (`SnippetCompiler.compileSnippets`)

External collaborators are supplied as oracles:
`extract` is `CodeBlockExtractor.extract` (succeeding with the raw block
texts of a document, or failing with the message of its
document-not-found error); `substitute` is the bound
`LocalImportSubstituter.substituteLocalPackageImports`; `compileOutcome k`
is whatever the `try` block of `testCodeCompilation` raised for the `k`-th
block of the run (`none` for success); `hrtime k` is the value of
`process.hrtime.bigint()` at its `k`-th call; `fs` gives the success or
failure of the three working-directory operations of one invocation. -/

/-- Failure behaviour of the filesystem collaborator during one
`compileSnippets` invocation, together with the initial presence of the
working directory. -/
structure FsBehavior where
  dirInitiallyPresent : Bool
  preRemoveFails : Bool
  ensureFails : Bool
  postRemoveFails : Bool
deriving DecidableEq

/-- The oracle environment of one `compileSnippets` invocation. -/
structure Env where
  extract : String → Except String (List String)
  substitute : String → String
  compileOutcome : Nat → Option RawError
  hrtime : Nat → Nat
  fs : FsBehavior

/-- Errors that escape a `compileSnippets` invocation. -/
inductive RunError where
  | documentError (message : String)
  | fsError
deriving DecidableEq

/-- `SnippetCompiler.extractFileCodeBlocks`: blocks of one file, indexed
from 1 in extraction order, `sanitisedCode` produced by the substituter,
`snippet` kept verbatim. -/
def extractFileCodeBlocks (env : Env) (file : String) : Except String (List CodeBlock) :=
  (env.extract file).map fun blocks =>
    blocks.enum.map fun p =>
      { file := file
        snippet := p.2
        index := p.1 + 1
        sanitisedCode := env.substitute p.2 }

/-- `SnippetCompiler.extractAllCodeBlocks`: per-file extraction
(`Promise.all` rejects when any file fails) flattened in file-list order. -/
def extractAllCodeBlocks (env : Env) (files : List String) : Except String (List CodeBlock) :=
  (files.mapM (extractFileCodeBlocks env)).map List.flatten

/-- The compilation stage: one `testCodeCompilation` per block, results in
block order (`Promise.all` keeps argument order). -/
def compileTheBlocks (env : Env) (blocks : List CodeBlock) : List SnippetCompilationResult :=
  blocks.enum.map fun p => testCodeCompilation (env.compileOutcome p.1) p.2

/-- Working-directory presence after the leading `cleanWorkingDirectory`
(`fsExtra.remove` leaves the directory untouched when it fails). -/
def dirAfterPreClean (fs : FsBehavior) : Bool :=
  if fs.preRemoveFails then fs.dirInitiallyPresent else false

/-- Working-directory presence after `fsExtra.ensureDir`. -/
def dirAfterEnsure (fs : FsBehavior) : Bool :=
  if fs.ensureFails then dirAfterPreClean fs else true

/-- The `try` body of `compileSnippets`: clean, ensure, extract, compile.
Returns the body's outcome and the directory presence when the body
finishes (normally or exceptionally). -/
def runBody (env : Env) (files : List String) :
    Except RunError (List SnippetCompilationResult) × Bool :=
  if env.fs.preRemoveFails then (.error .fsError, dirAfterPreClean env.fs)
  else if env.fs.ensureFails then (.error .fsError, dirAfterEnsure env.fs)
  else
    match extractAllCodeBlocks env files with
    | .error msg => (.error (.documentError msg), dirAfterEnsure env.fs)
    | .ok blocks => (.ok (compileTheBlocks env blocks), dirAfterEnsure env.fs)

/-- `SnippetCompiler.compileSnippets`: the `try` body wrapped in the
`finally` that removes the working directory again; an exception thrown by
the `finally` clause replaces the body's outcome.  The second component is
the directory presence when the call settles. -/
def compileSnippets (env : Env) (files : List String) :
    Except RunError (List SnippetCompilationResult) × Bool :=
  let body := runBody env files
  if env.fs.postRemoveFails then (.error .fsError, body.2)
  else (body.1, false)

/-! ## Concurrent completion schedules

`Promise.all` starts every per-block compilation, waits for all of them
and hands the results back in argument order.  `fillSlots` models the
aggregation: an array of result slots, one per block, written as
completions arrive in an arbitrary order `sched`. -/

/-- Write the results of the tasks into their slots in completion order. -/
def fillSlots (res : Nat → α) (sched : List Nat) (slots : List (Option α)) :
    List (Option α) :=
  sched.foldl (fun s i => s.set i (some (res i))) slots

/-- The per-block result function of one run. -/
def blockResult (env : Env) (blocks : List CodeBlock) (k : Nat) :
    SnippetCompilationResult :=
  testCodeCompilation (env.compileOutcome k) (blocks.getD k default)

/-- The compilation stage under an explicit completion schedule. -/
def compileTheBlocksScheduled (env : Env) (blocks : List CodeBlock)
    (sched : List Nat) : List (Option SnippetCompilationResult) :=
  fillSlots (blockResult env blocks) sched (List.replicate blocks.length none)

/-! ## Temporary file names (`SnippetCompiler.compile`) -/

/-- `path.join(a, b)` for the simple relative second argument used here. -/
def pathJoin (a b : String) : String := a ++ "/" ++ b

/-- The temporary file name `block-${id}.ts` of `SnippetCompiler.compile`. -/
def blockFileName (id : Nat) : String := "block-" ++ natRepr id ++ ".ts"

/-- The full temporary path `path.join(workingDirectory, block-${id}.ts)`. -/
def generatedCodeFile (workingDirectory : String) (id : Nat) : String :=
  pathJoin workingDirectory (blockFileName id)

/-- The temporary paths generated during one run: the `k`-th compile call
reads the clock and builds its path from the returned token. -/
def generatedCodeFiles (env : Env) (workingDirectory : String)
    (blocks : List CodeBlock) : List String :=
  (List.range blocks.length).map fun k => generatedCodeFile workingDirectory (env.hrtime k)

/-! ## Import localiser

`LocalImportSubstituter` is consumed by `SnippetCompiler.ts` but its
source file is not part of the repository snapshot. -/

/-- Modelled from the spec: `LocalImportSubstituter` (§4.2 of the spec;
the source file `src/LocalImportSubstituter.ts` is missing from the
snapshot, only its caller `SnippetCompiler.extractAllCodeBlocks` is
present).  It is bound to the package's declared name, the local
entry-point reference used for whole-name imports, and the package root
against which sub-paths are resolved. -/
structure LocalImportSubstituter where
  packageName : String
  entryPointPath : String
  packageRoot : String

/-- Modelled from the spec: rewriting of one module specifier (§4.2).
A specifier equal to the declared name resolves to the local entry point;
the declared name followed by `/` and a sub-path resolves to the sub-path
against the package root; anything else — including specifiers merely
sharing a prefix with the name — is untouched. -/
def substituteSpecifier (sub : LocalImportSubstituter) (s : String) : String :=
  if s = sub.packageName then sub.entryPointPath
  else if (sub.packageName.data ++ ['/']).isPrefixOf s.data then
    String.mk (sub.packageRoot.data ++ '/' :: s.data.drop (sub.packageName.data.length + 1))
  else s

/-- Modelled from the spec: a code block as the localiser sees it — a
sequence of lines, each either an import with a module specifier or plain
text (§4.2 rewrites module specifiers and nothing else). -/
inductive CodeLine where
  | importLine (specifier : String)
  | textLine (content : String)
deriving DecidableEq

/-- Modelled from the spec: `substituteLocalPackageImports` (§4.2) — every
module specifier of an import is rewritten through `substituteSpecifier`,
all other text is returned unchanged; pure in its inputs. -/
def substituteLocalPackageImports (sub : LocalImportSubstituter)
    (code : List CodeLine) : List CodeLine :=
  code.map fun line =>
    match line with
    | .importLine s => .importLine (substituteSpecifier sub s)
    | .textLine t => .textLine t

/-! ## Entry points (`index.ts` and the unnamed native-Promise variant) -/

/-- `wrapIfString` from `index.ts`. -/
def wrapIfString : String ⊕ List String → List String
  | .inl s => [s]
  | .inr l => l

/-- `DEFAULT_FILES` from `index.ts`. -/
def DEFAULT_FILES : List String := ["README.md"]

/-- `compileSnippets` from `index.ts` (the Bluebird entry point): default
the omitted argument, wrap a bare string, build the working directory
under the current one, and delegate.  Returns the working directory, the
delegated file list and the delegated run. -/
def bluebirdEntry (env : Env) (cwd : String) (arg : Option (String ⊕ List String)) :
    (String × List String) × (Except RunError (List SnippetCompilationResult) × Bool) :=
  let markdownFileOrFiles := arg.getD (.inr DEFAULT_FILES)
  let workingDirectory := pathJoin cwd "compiled-docs"
  let fileArray := wrapIfString markdownFileOrFiles
  ((workingDirectory, fileArray), compileSnippets env fileArray)

/-- `COMPILED_DOCS_FOLDER` from the unnamed native-Promise entry point. -/
def COMPILED_DOCS_FOLDER : String := "compiled-docs"

/-- `compileSnippets` from the unnamed native-Promise entry point
(`src/unnamed/part_000`). -/
def nativeEntry (env : Env) (cwd : String) (arg : Option (String ⊕ List String)) :
    (String × List String) × (Except RunError (List SnippetCompilationResult) × Bool) :=
  let markdownFileOrFiles := arg.getD (.inr DEFAULT_FILES)
  let workingDirectory := pathJoin cwd COMPILED_DOCS_FOLDER
  let fileArray := wrapIfString markdownFileOrFiles
  ((workingDirectory, fileArray), compileSnippets env fileArray)

/-! ## Substring occurrence

`hasSub pat l` decides whether `pat` occurs contiguously inside `l`; it is
the notion of "the text contains …" used by the claims about scrubbed
error text. -/

/-- `pat` occurs at the head of `l`. -/
def startsWithChars (pat l : List Char) : Bool :=
  match pat, l with
  | [], _ => true
  | _ :: _, [] => false
  | p :: ps, c :: cs => c = p && startsWithChars ps cs

/-- `pat` occurs contiguously somewhere in `l`. -/
def hasSub (pat : List Char) : List Char → Bool
  | [] => startsWithChars pat []
  | c :: cs => startsWithChars pat (c :: cs) || hasSub pat cs

theorem startsWithChars_iff (pat : List Char) : ∀ l : List Char,
    startsWithChars pat l = true ↔ ∃ t, l = pat ++ t := by
  induction pat with
  | nil =>
    intro l
    simp [startsWithChars]
  | cons p ps ih =>
    intro l
    cases l with
    | nil =>
      simp [startsWithChars]
    | cons c cs =>
      simp only [startsWithChars, Bool.and_eq_true, decide_eq_true_eq, ih cs,
        List.cons_append, List.cons.injEq]
      constructor
      · rintro ⟨hc, t, ht⟩
        exact ⟨t, hc, ht⟩
      · rintro ⟨t, hc, ht⟩
        exact ⟨hc, t, ht⟩

theorem hasSub_iff (pat : List Char) : ∀ l : List Char,
    hasSub pat l = true ↔ ∃ s t, l = s ++ pat ++ t := by
  intro l
  induction l with
  | nil =>
    simp only [hasSub, startsWithChars_iff]
    constructor
    · rintro ⟨t, ht⟩
      exact ⟨[], t, ht⟩
    · rintro ⟨s, t, hst⟩
      cases s with
      | nil => exact ⟨t, by simpa using hst⟩
      | cons a as => simp at hst
  | cons c cs ih =>
    simp only [hasSub, Bool.or_eq_true, startsWithChars_iff, ih]
    constructor
    · rintro (⟨t, ht⟩ | ⟨s, t, hst⟩)
      · exact ⟨[], t, by simpa using ht⟩
      · exact ⟨c :: s, t, by simp [hst]⟩
    · rintro ⟨s, t, hst⟩
      cases s with
      | nil => exact Or.inl ⟨t, by simpa using hst⟩
      | cons a as =>
        simp only [List.cons_append, List.cons.injEq] at hst
        exact Or.inr ⟨as, t, hst.2⟩

theorem hasSub_of_middle (pat s t : List Char) : hasSub pat (s ++ pat ++ t) = true :=
  (hasSub_iff pat _).mpr ⟨s, t, rfl⟩

/-- An occurrence in a concatenation lies in the left part, lies in the
right part, or spans the boundary. -/
theorem hasSub_append (pat xs ys : List Char) (h : hasSub pat (xs ++ ys) = true) :
    hasSub pat xs = true ∨ hasSub pat ys = true ∨
      ∃ p1 p2, pat = p1 ++ p2 ∧ p1 ≠ [] ∧ p2 ≠ [] ∧ p1 <:+ xs ∧ p2 <+: ys := by
  obtain ⟨s, t, hst⟩ := (hasSub_iff pat _).mp h
  rw [List.append_assoc] at hst
  rcases List.append_eq_append_iff.mp hst with ⟨a, _, hb⟩ | ⟨c, hc, hd⟩
  · right; left
    exact (hasSub_iff pat _).mpr ⟨a, t, by rw [hb, List.append_assoc]⟩
  · rcases List.append_eq_append_iff.mp hd with ⟨a, ha2, _⟩ | ⟨e, he, hf⟩
    · left
      exact (hasSub_iff pat _).mpr ⟨s, a, by rw [hc, ha2, List.append_assoc]⟩
    · cases c with
      | nil =>
        right; left
        simp only [List.nil_append] at he
        exact (hasSub_iff pat _).mpr ⟨[], t, by rw [hf, ← he, List.nil_append]⟩
      | cons c0 crest =>
        cases e with
        | nil =>
          left
          simp only [List.append_nil] at he
          exact (hasSub_iff pat _).mpr ⟨s, [], by rw [hc, ← he, List.append_nil]⟩
        | cons e0 erest =>
          right; right
          exact ⟨c0 :: crest, e0 :: erest, he, by simp, by simp,
            ⟨s, hc.symm⟩, ⟨t, hf.symm⟩⟩

/-- A nonempty list that is a prefix of `x :: l` starts with `x`. -/
theorem head_of_prefix_cons (p : List Char) (x : Char) (l : List Char)
    (hp : p <+: x :: l) (hne : p ≠ []) : ∃ q, p = x :: q := by
  cases p with
  | nil => exact absurd rfl hne
  | cons a as =>
    obtain ⟨t, ht⟩ := hp
    simp only [List.cons_append, List.cons.injEq] at ht
    exact ⟨as, by rw [ht.1]⟩

/-! ## Helper lemmas about the orchestrator -/

/-- The block list a file contributes when its extraction succeeds
(empty branch is unreachable under a successful run). -/
def fileBlocks (env : Env) (f : String) : List CodeBlock :=
  match env.extract f with
  | .ok bs =>
    bs.enum.map fun p =>
      { file := f
        snippet := p.2
        index := p.1 + 1
        sanitisedCode := env.substitute p.2 }
  | .error _ => []

theorem extractFileCodeBlocks_ok (env : Env) (f : String) (bs : List String)
    (h : env.extract f = .ok bs) :
    extractFileCodeBlocks env f = .ok (fileBlocks env f) := by
  simp only [extractFileCodeBlocks, fileBlocks, h, Except.map]

theorem extractAll_ok_elim (env : Env) : ∀ (files : List String) (blocks : List CodeBlock),
    extractAllCodeBlocks env files = .ok blocks →
    (∀ f ∈ files, ∃ bs, env.extract f = .ok bs) ∧
      blocks = (files.map (fileBlocks env)).flatten := by
  intro files
  induction files with
  | nil =>
    intro blocks h
    simp only [extractAllCodeBlocks, List.mapM_nil, pure, Except.pure, Except.map,
      List.flatten_nil, Except.ok.injEq] at h
    exact ⟨by simp, by simp [← h]⟩
  | cons f fs ih =>
    intro blocks h
    simp only [extractAllCodeBlocks, List.mapM_cons] at h
    cases hf : extractFileCodeBlocks env f with
    | error e =>
      rw [hf] at h
      simp [Except.map, Except.bind, Bind.bind] at h
    | ok b =>
      rw [hf] at h
      cases hfs : fs.mapM (extractFileCodeBlocks env) with
      | error e =>
        rw [hfs] at h
        simp [Except.map, Except.bind, Bind.bind] at h
      | ok rest =>
        rw [hfs] at h
        simp only [Except.map, Except.bind, Bind.bind, pure, Except.pure,
          Except.ok.injEq] at h
        have hfsall : extractAllCodeBlocks env fs = .ok rest.flatten := by
          simp only [extractAllCodeBlocks]
          rw [hfs]
          rfl
        obtain ⟨hall, hflat⟩ := ih rest.flatten hfsall
        cases hfext : env.extract f with
        | error e =>
          exfalso
          simp [extractFileCodeBlocks, hfext, Except.map] at hf
        | ok bs =>
          have hb : b = fileBlocks env f := by
            have h2 := extractFileCodeBlocks_ok env f bs hfext
            rw [hf] at h2
            exact Except.ok.inj h2
          constructor
          · intro g hg
            rcases List.mem_cons.mp hg with hg | hg
            · exact ⟨bs, by rw [hg]; exact hfext⟩
            · exact hall g hg
          · simp only [List.map_cons, List.flatten_cons]
            rw [← h, hb]
            simp only [List.flatten_cons, hflat]

theorem compileSnippets_run_ok (env : Env) (files : List String) (blocks : List CodeBlock)
    (hpre : env.fs.preRemoveFails = false) (hens : env.fs.ensureFails = false)
    (hpost : env.fs.postRemoveFails = false)
    (hex : extractAllCodeBlocks env files = .ok blocks) :
    compileSnippets env files = (.ok (compileTheBlocks env blocks), false) := by
  simp [compileSnippets, runBody, hpre, hens, hpost, hex]

theorem compileSnippets_ok_elim (env : Env) (files : List String)
    (rs : List SnippetCompilationResult)
    (h : (compileSnippets env files).1 = .ok rs) :
    env.fs.preRemoveFails = false ∧ env.fs.ensureFails = false ∧
      env.fs.postRemoveFails = false ∧
      ∃ blocks, extractAllCodeBlocks env files = .ok blocks ∧
        rs = compileTheBlocks env blocks := by
  by_cases hpost : env.fs.postRemoveFails
  · simp [compileSnippets, hpost] at h
  · by_cases hpre : env.fs.preRemoveFails
    · simp [compileSnippets, runBody, hpost, hpre] at h
    · by_cases hens : env.fs.ensureFails
      · simp [compileSnippets, runBody, hpost, hpre, hens] at h
      · cases hex : extractAllCodeBlocks env files with
        | error e =>
          simp [compileSnippets, runBody, hpost, hpre, hens, hex] at h
        | ok blocks =>
          have hrun : compileSnippets env files = (.ok (compileTheBlocks env blocks), false) :=
            compileSnippets_run_ok env files blocks (Bool.eq_false_iff.mpr hpre)
              (Bool.eq_false_iff.mpr hens) (Bool.eq_false_iff.mpr hpost) hex
          rw [hrun] at h
          have h2 : compileTheBlocks env blocks = rs := by simpa using h
          exact ⟨Bool.eq_false_iff.mpr hpre, Bool.eq_false_iff.mpr hens,
            Bool.eq_false_iff.mpr hpost, blocks, rfl, h2.symm⟩

theorem fillSlots_length (res : Nat → α) : ∀ (sched : List Nat) (slots : List (Option α)),
    (fillSlots res sched slots).length = slots.length := by
  intro sched
  induction sched with
  | nil => intro slots; rfl
  | cons i rest ih =>
    intro slots
    simp only [fillSlots, List.foldl_cons] at *
    rw [ih (slots.set i (some (res i))), List.length_set]

theorem fillSlots_getElem (res : Nat → α) : ∀ (sched : List Nat) (slots : List (Option α))
    (j : Nat), j < slots.length →
    (fillSlots res sched slots)[j]? =
      if j ∈ sched then some (some (res j)) else slots[j]? := by
  intro sched
  induction sched with
  | nil =>
    intro slots j hj
    simp [fillSlots]
  | cons i rest ih =>
    intro slots j hj
    have hlen : j < (slots.set i (some (res i))).length := by
      rw [List.length_set]; exact hj
    have step : fillSlots res (i :: rest) slots =
        fillSlots res rest (slots.set i (some (res i))) := rfl
    rw [step, ih _ j hlen]
    by_cases hjr : j ∈ rest
    · simp [hjr]
    · by_cases hji : j = i
      · subst hji
        simp [hjr, List.getElem?_set_self', hj]
      · simp only [hjr, if_false, List.mem_cons]
        rw [List.getElem?_set_ne (fun hij => hji hij.symm)]
        simp [hji, hjr]

theorem fillSlots_complete (res : Nat → α) (n : Nat) (sched : List Nat)
    (hcov : ∀ i, i < n → i ∈ sched) :
    fillSlots res sched (List.replicate n none) =
      (List.range n).map (fun k => some (res k)) := by
  apply List.ext_getElem?
  intro j
  by_cases hj : j < n
  · rw [fillSlots_getElem res sched _ j (by simp [hj])]
    simp [hcov j hj, hj]
  · have h1 : (fillSlots res sched (List.replicate n none)).length = n := by
      rw [fillSlots_length]; simp
    have h2 : ((List.range n).map (fun k => some (res k))).length = n := by simp
    rw [List.getElem?_eq_none (by omega), List.getElem?_eq_none (by omega)]

theorem compileTheBlocks_eq_range (env : Env) (blocks : List CodeBlock) :
    compileTheBlocks env blocks = (List.range blocks.length).map (blockResult env blocks) := by
  apply List.ext_getElem?
  intro j
  by_cases hj : j < blocks.length
  · simp only [compileTheBlocks, List.getElem?_map, List.getElem?_enum,
      List.getElem?_range hj]
    rw [List.getElem?_eq_getElem hj]
    simp [blockResult, List.getD, List.getElem?_eq_getElem hj]
  · have h1 : (compileTheBlocks env blocks).length = blocks.length := by
      simp [compileTheBlocks]
    have h2 : ((List.range blocks.length).map (blockResult env blocks)).length =
        blocks.length := by simp
    rw [List.getElem?_eq_none (by omega), List.getElem?_eq_none (by omega)]

theorem string_data_injective : ∀ s t : String, s.data = t.data → s = t := by
  intro s t h
  cases s
  cases t
  simp_all

theorem generatedCodeFile_inj (wd : String) : Function.Injective (generatedCodeFile wd) := by
  intro i j h
  have hd := congrArg String.data h
  simp only [generatedCodeFile, pathJoin, blockFileName, String.data_append,
    List.append_assoc] at hd
  have h1 := List.append_cancel_left hd
  have h2 := List.append_cancel_left h1
  have h3 := List.append_cancel_left h2
  have h4 := List.append_cancel_right h3
  exact natRepr_injective (string_data_injective _ _ h4)

/-- Field preservation of `testCodeCompilation`: the result always carries
the block's own `file`, `index` and verbatim `snippet`. -/
theorem testCodeCompilation_fields (outcome : Option RawError) (ex : CodeBlock) :
    (testCodeCompilation outcome ex).file = ex.file ∧
    (testCodeCompilation outcome ex).index = ex.index ∧
    (testCodeCompilation outcome ex).snippet = ex.snippet := by
  cases outcome <;> exact ⟨rfl, rfl, rfl⟩

/-- A sample environment: every document yields one block, every
compilation succeeds, the clock is the identity, the filesystem behaves. -/
def envW : Env :=
  { extract := fun _ => .ok ["const x = 1"]
    substitute := fun s => s
    compileOutcome := fun _ => none
    hrtime := fun k => k
    fs := { dirInitiallyPresent := false
            preRemoveFails := false
            ensureFails := false
            postRemoveFails := false } }

/-- C10: the Bluebird entry point of `index.ts` and the native-Promise
entry point of `src/unnamed/part_000` are observationally equivalent —
same defaulting of an omitted argument to `README.md`, same wrapping of a
bare string, same pass-through of a list, same working directory
`compiled-docs` under the current directory, same delegation. -/
theorem entry_points_equivalent (env : Env) (cwd : String)
    (arg : Option (String ⊕ List String)) (s : String) (l : List String) :
    bluebirdEntry env cwd arg = nativeEntry env cwd arg
    ∧ (bluebirdEntry env cwd none).1 = (pathJoin cwd "compiled-docs", ["README.md"])
    ∧ (bluebirdEntry env cwd (some (.inl s))).1.2 = [s]
    ∧ (bluebirdEntry env cwd (some (.inr l))).1.2 = l :=
  ⟨rfl, rfl, rfl, rfl⟩

/-- C9: within one run the generated temporary file names
`block-<id>.ts` are pairwise distinct whenever the clock tokens are
distinct per call, so no two concurrent compilations share a file. -/
theorem generated_file_names_distinct (env : Env) (workingDirectory : String)
    (blocks : List CodeBlock) (hinj : Function.Injective env.hrtime) :
    (generatedCodeFiles env workingDirectory blocks).Nodup := by
  unfold generatedCodeFiles
  apply List.Nodup.map
  · exact fun a b hab => hinj (generatedCodeFile_inj workingDirectory hab)
  · exact List.nodup_range blocks.length

theorem generated_file_names_distinct_witness :
    Function.Injective envW.hrtime ∧
      (generatedCodeFiles envW "/w/compiled-docs"
        [⟨"README.md", 1, "a", "a"⟩, ⟨"README.md", 2, "b", "b"⟩]).Nodup :=
  ⟨fun _ _ h => h,
    generated_file_names_distinct envW "/w/compiled-docs" _ (fun _ _ h => h)⟩

/-- C5: the working directory is removed and recreated before compilation
starts, and the `finally` removal runs on every exit path, so whenever
that removal succeeds the call settles — normally or exceptionally — with
the directory absent. -/
theorem working_directory_cleanup (env : Env) (files : List String)
    (hpost : env.fs.postRemoveFails = false) :
    (compileSnippets env files).2 = false
    ∧ (env.fs.preRemoveFails = false → dirAfterPreClean env.fs = false)
    ∧ (env.fs.preRemoveFails = false → env.fs.ensureFails = false →
        dirAfterEnsure env.fs = true) := by
  refine ⟨?_, ?_, ?_⟩
  · simp [compileSnippets, hpost]
  · intro h
    simp [dirAfterPreClean, h]
  · intro h1 h2
    simp [dirAfterEnsure, dirAfterPreClean, h1, h2]

theorem working_directory_cleanup_witness :
    envW.fs.postRemoveFails = false ∧ (compileSnippets envW ["README.md"]).2 = false :=
  ⟨rfl, (working_directory_cleanup envW ["README.md"] rfl).1⟩

/-- Number of blocks a file contributes under its extraction outcome. -/
def fileBlockCount (env : Env) (f : String) : Nat :=
  match env.extract f with
  | .ok bs => bs.length
  | .error _ => 0

theorem fileBlocks_proj (env : Env) (f : String) :
    (fileBlocks env f).map (fun b => (b.file, b.index)) =
      (List.range (fileBlockCount env f)).map (fun i => (f, i + 1)) := by
  cases hf : env.extract f with
  | error e => simp [fileBlocks, fileBlockCount, hf]
  | ok bs =>
    simp only [fileBlocks, fileBlockCount, hf]
    apply List.ext_getElem?
    intro j
    by_cases hj : j < bs.length
    · simp only [List.map_map, List.getElem?_map, List.getElem?_enum,
        List.getElem?_range hj, List.getElem?_eq_getElem hj, Option.map_some']
      rfl
    · have hj2 : bs.length ≤ j := by omega
      rw [List.getElem?_eq_none (by simpa using hj2),
        List.getElem?_eq_none (by simpa using hj2)]

/-- C1: the results of a run are deterministically ordered — assembling
the per-block results under any completion schedule that covers all
blocks yields exactly the sequential list, and the (file, index)
projection of that list is the input file order with each file's blocks
in extraction order. -/
theorem compileSnippets_deterministic_order (env : Env) (files : List String)
    (blocks : List CodeBlock) (sched : List Nat)
    (hex : extractAllCodeBlocks env files = .ok blocks)
    (hsched : ∀ i, i < blocks.length → i ∈ sched) :
    compileTheBlocksScheduled env blocks sched = (compileTheBlocks env blocks).map some
    ∧ (compileTheBlocks env blocks).map (fun r => (r.file, r.index)) =
        (files.map fun f =>
          (List.range (fileBlockCount env f)).map fun i => (f, i + 1)).flatten := by
  obtain ⟨hall, hflat⟩ := extractAll_ok_elim env files blocks hex
  constructor
  · unfold compileTheBlocksScheduled
    rw [fillSlots_complete (blockResult env blocks) blocks.length sched hsched]
    rw [compileTheBlocks_eq_range]
    rw [List.map_map]
    rfl
  · have hproj : (compileTheBlocks env blocks).map (fun r => (r.file, r.index)) =
        blocks.map (fun b => (b.file, b.index)) := by
      simp only [compileTheBlocks, List.map_map]
      have : ((fun r : SnippetCompilationResult => (r.file, r.index)) ∘
          fun p : Nat × CodeBlock => testCodeCompilation (env.compileOutcome p.1) p.2) =
          (fun b : CodeBlock => (b.file, b.index)) ∘ (fun p : Nat × CodeBlock => p.2) := by
        funext p
        exact congrArg₂ Prod.mk (testCodeCompilation_fields _ _).1
          (testCodeCompilation_fields _ _).2.1
      rw [this, ← List.map_map]
      simp
    rw [hproj, hflat, List.map_flatten, List.map_map]
    simp only [Function.comp_def, fileBlocks_proj]

theorem compileSnippets_deterministic_order_witness :
    extractAllCodeBlocks envW ["a.md"] =
        .ok [⟨"a.md", 1, "const x = 1", "const x = 1"⟩]
    ∧ (∀ i, i < 1 → i ∈ [0])
    ∧ compileTheBlocksScheduled envW [⟨"a.md", 1, "const x = 1", "const x = 1"⟩] [0] =
        (compileTheBlocks envW [⟨"a.md", 1, "const x = 1", "const x = 1"⟩]).map some :=
  ⟨by rfl, by decide,
    (compileSnippets_deterministic_order envW ["a.md"] _ [0] (by rfl) (by decide)).1⟩

/-- The raw block texts a file contributes (spec view of one document). -/
def rawBlocks (env : Env) (f : String) : List String :=
  match env.extract f with
  | .ok bs => bs
  | .error _ => []

theorem fileBlocks_snippets (env : Env) (f : String) :
    (fileBlocks env f).map (fun b => b.snippet) = rawBlocks env f := by
  cases hf : env.extract f with
  | error e => simp [fileBlocks, rawBlocks, hf]
  | ok bs =>
    simp only [fileBlocks, rawBlocks, hf, List.map_map]
    have : ((fun b : CodeBlock => b.snippet) ∘ fun p : Nat × String =>
        ({ file := f, snippet := p.2, index := p.1 + 1,
           sanitisedCode := env.substitute p.2 } : CodeBlock)) = Prod.snd := by
      funext p
      rfl
    rw [this]
    simp

/-- C6: the `snippet` of every result is the verbatim extracted block —
in the success and in the failure branch — and the snippet sequence of a
run is the raw extracted texts in order, independent of the substituter. -/
theorem snippet_round_trip (env env2 : Env) (files : List String)
    (blocks blocks2 : List CodeBlock) (outcome : Option RawError) (ex : CodeBlock)
    (hex : extractAllCodeBlocks env files = .ok blocks) :
    (testCodeCompilation outcome ex).snippet = ex.snippet
    ∧ (compileTheBlocks env blocks).map (fun r => r.snippet) =
        (files.map (rawBlocks env)).flatten
    ∧ (env2.extract = env.extract → extractAllCodeBlocks env2 files = .ok blocks2 →
        blocks2.map (fun b => b.snippet) = blocks.map (fun b => b.snippet)) := by
  obtain ⟨hall, hflat⟩ := extractAll_ok_elim env files blocks hex
  have hsn : ∀ (e : Env) (bl : List CodeBlock),
      (compileTheBlocks e bl).map (fun r => r.snippet) = bl.map (fun b => b.snippet) := by
    intro e bl
    simp only [compileTheBlocks, List.map_map]
    have : ((fun r : SnippetCompilationResult => r.snippet) ∘
        fun p : Nat × CodeBlock => testCodeCompilation (e.compileOutcome p.1) p.2) =
        (fun b : CodeBlock => b.snippet) ∘ (fun p : Nat × CodeBlock => p.2) := by
      funext p
      exact (testCodeCompilation_fields _ _).2.2
    rw [this, ← List.map_map]
    simp
  refine ⟨(testCodeCompilation_fields outcome ex).2.2, ?_, ?_⟩
  · rw [hsn, hflat, List.map_flatten, List.map_map]
    simp only [Function.comp_def, fileBlocks_snippets]
  · intro hext hex2
    obtain ⟨hall2, hflat2⟩ := extractAll_ok_elim env2 files blocks2 hex2
    rw [hflat, hflat2, List.map_flatten, List.map_flatten, List.map_map, List.map_map]
    simp only [Function.comp_def, fileBlocks_snippets]
    have : rawBlocks env2 = rawBlocks env := by
      funext g
      simp [rawBlocks, hext]
    rw [this]

theorem snippet_round_trip_witness :
    extractAllCodeBlocks envW ["a.md"] =
        .ok [⟨"a.md", 1, "const x = 1", "const x = 1"⟩]
    ∧ (testCodeCompilation none ⟨"a.md", 1, "const x = 1", "const x = 1"⟩).snippet =
        "const x = 1" :=
  ⟨by rfl,
    (snippet_round_trip envW envW ["a.md"] _ [⟨"a.md", 1, "const x = 1", "const x = 1"⟩]
      none ⟨"a.md", 1, "const x = 1", "const x = 1"⟩ (by rfl)).1⟩

/-- C2: a failure raised inside a block's `try` is converted into that
block's result and never aborts the run or touches other blocks; the
`error` field is absent exactly when nothing was raised (which forces
`linesWithErrors` to be empty); and the whole call fails exactly for a
working-directory operation failure or a failed document extraction. -/
theorem error_recovery_and_propagation (env : Env) (files : List String)
    (blocks : List CodeBlock) (k : Nat) (outcome : Option RawError) (ex : CodeBlock) :
    (extractAllCodeBlocks env files = .ok blocks →
      env.fs.preRemoveFails = false → env.fs.ensureFails = false →
      env.fs.postRemoveFails = false →
      (compileSnippets env files).1 = .ok (compileTheBlocks env blocks))
    ∧ ((testCodeCompilation outcome ex).error = none ↔
        ((testCodeCompilation outcome ex).linesWithErrors = [] ∧ outcome = none))
    ∧ (∀ e, outcome = some e →
        (testCodeCompilation outcome ex).error = some (scrubError ex e))
    ∧ (compileTheBlocks env blocks)[k]? =
        (blocks[k]?).map (fun b => testCodeCompilation (env.compileOutcome k) b)
    ∧ ((∃ e, (compileSnippets env files).1 = .error e) ↔
        (env.fs.preRemoveFails = true ∨ env.fs.ensureFails = true ∨
          env.fs.postRemoveFails = true ∨
          ∃ msg, extractAllCodeBlocks env files = .error msg)) := by
  refine ⟨?_, ?_, ?_, ?_, ?_⟩
  · intro hex hpre hens hpost
    rw [compileSnippets_run_ok env files blocks hpre hens hpost hex]
  · cases outcome with
    | none => simp [testCodeCompilation]
    | some e => simp [testCodeCompilation]
  · intro e he
    subst he
    rfl
  · simp only [compileTheBlocks, List.getElem?_map, List.getElem?_enum]
    cases blocks[k]? <;> rfl
  · by_cases hpost : env.fs.postRemoveFails
    · simp [compileSnippets, hpost]
    · by_cases hpre : env.fs.preRemoveFails
      · simp [compileSnippets, runBody, hpre, hpost]
      · by_cases hens : env.fs.ensureFails
        · simp [compileSnippets, runBody, hpre, hens, hpost]
        · cases hex : extractAllCodeBlocks env files with
          | error msg =>
            simp [compileSnippets, runBody, hpre, hens, hpost, hex]
          | ok bl =>
            simp [compileSnippets, runBody, hpre, hens, hpost, hex]

theorem error_recovery_and_propagation_witness :
    extractAllCodeBlocks envW ["a.md"] =
        .ok [⟨"a.md", 1, "const x = 1", "const x = 1"⟩]
    ∧ (compileSnippets envW ["a.md"]).1 =
        .ok (compileTheBlocks envW [⟨"a.md", 1, "const x = 1", "const x = 1"⟩]) :=
  ⟨by rfl,
    (error_recovery_and_propagation envW ["a.md"]
        [⟨"a.md", 1, "const x = 1", "const x = 1"⟩] 0 none
        ⟨"a.md", 1, "const x = 1", "const x = 1"⟩).1 (by rfl) rfl rfl rfl⟩

theorem fileBlocks_file (env : Env) (f : String) :
    ∀ b ∈ fileBlocks env f, b.file = f := by
  intro b hb
  unfold fileBlocks at hb
  cases hf : env.extract f with
  | error e => simp [hf] at hb
  | ok bs =>
    rw [hf] at hb
    simp only [List.mem_map] at hb
    obtain ⟨p, _, hp⟩ := hb
    rw [← hp]

theorem compileTheBlocks_filter_index (f : String) :
    ∀ (out : Nat → Option RawError) (n : Nat) (blocks : List CodeBlock),
    ((((List.enumFrom n blocks).map fun p =>
        testCodeCompilation (out p.1) p.2).filter fun r => r.file == f).map
          fun r => r.index) =
      ((blocks.filter fun b => b.file == f).map fun b => b.index) := by
  intro out
  intro n blocks
  induction blocks generalizing n with
  | nil => rfl
  | cons b bs ih =>
    have hfile : (testCodeCompilation (out n) b).file = b.file :=
      (testCodeCompilation_fields _ _).1
    have hidx : (testCodeCompilation (out n) b).index = b.index :=
      (testCodeCompilation_fields _ _).2.1
    simp only [List.enumFrom, List.map_cons, List.filter_cons, hfile, hidx]
    by_cases hb : (b.file == f) = true
    · rw [if_pos hb, if_pos hb]
      simp only [List.map_cons, hidx]
      rw [ih (n + 1)]
    · rw [if_neg hb, if_neg hb]
      exact ih (n + 1)

theorem fileBlocks_indices (env : Env) (f : String) (rawbs : List String)
    (hf : env.extract f = .ok rawbs) :
    (fileBlocks env f).map (fun b => b.index) = List.range' 1 rawbs.length := by
  simp only [fileBlocks, hf]
  apply List.ext_getElem?
  intro j
  by_cases hj : j < rawbs.length
  · simp only [List.map_map, List.getElem?_map, List.getElem?_enum,
      List.getElem?_eq_getElem hj, Option.map_some', List.getElem?_range']
    simp [hj, Nat.add_comm]
  · have hj2 : rawbs.length ≤ j := by omega
    rw [List.getElem?_eq_none (by simpa using hj2),
      List.getElem?_eq_none (by simpa using hj2)]

/-- C7: a document requested once that extracts `N` blocks contributes
exactly `N` results, with `index` values `1 .. N` in extraction order; a
document with zero blocks contributes none (`range' 1 0 = []`). -/
theorem dense_block_indices (env : Env) (files l1 l2 : List String)
    (rs : List SnippetCompilationResult) (f : String) (rawbs : List String)
    (hrun : (compileSnippets env files).1 = .ok rs)
    (hsplit : files = l1 ++ f :: l2) (h1 : f ∉ l1) (h2 : f ∉ l2)
    (hf : env.extract f = .ok rawbs) :
    ((rs.filter fun r => r.file == f).map fun r => r.index) =
      List.range' 1 rawbs.length := by
  obtain ⟨hpre, hens, hpost, blocks, hex, hrs⟩ := compileSnippets_ok_elim env files rs hrun
  obtain ⟨hall, hflat⟩ := extractAll_ok_elim env files blocks hex
  have hstep1 : ((rs.filter fun r => r.file == f).map fun r => r.index) =
      ((blocks.filter fun b => b.file == f).map fun b => b.index) := by
    rw [hrs]
    exact compileTheBlocks_filter_index f env.compileOutcome 0 blocks
  rw [hstep1, hflat, hsplit]
  have hother : ∀ g : String, g ≠ f →
      (fileBlocks env g).filter (fun b => b.file == f) = [] := by
    intro g hg
    apply List.filter_eq_nil_iff.mpr
    intro b hb
    have hb2 := fileBlocks_file env g b hb
    simp [hb2, hg]
  have hflatten : ∀ l : List String, f ∉ l →
      ((l.map (fileBlocks env)).flatten.filter fun b => b.file == f) = [] := by
    intro l hl
    induction l with
    | nil => rfl
    | cons g gs ihg =>
      simp only [List.map_cons, List.flatten_cons, List.filter_append]
      rw [hother g (fun hgf => hl (by simp [hgf])),
        ihg (fun hf2 => hl (by simp [hf2]))]
      simp
  have hself : (fileBlocks env f).filter (fun b => b.file == f) = fileBlocks env f := by
    apply List.filter_eq_self.mpr
    intro b hb
    simp [fileBlocks_file env f b hb]
  simp only [List.map_append, List.map_cons, List.flatten_append, List.flatten_cons,
    List.filter_append]
  rw [hflatten l1 h1, hflatten l2 h2, hself]
  simpa using fileBlocks_indices env f rawbs hf

theorem dense_block_indices_witness :
    (compileSnippets envW ["a.md"]).1 =
        .ok (compileTheBlocks envW [⟨"a.md", 1, "const x = 1", "const x = 1"⟩])
    ∧ ((["a.md"] : List String) = [] ++ "a.md" :: []) ∧ "a.md" ∉ ([] : List String)
    ∧ envW.extract "a.md" = .ok ["const x = 1"]
    ∧ (((compileTheBlocks envW [⟨"a.md", 1, "const x = 1", "const x = 1"⟩]).filter
          fun r => r.file == "a.md").map fun r => r.index) = List.range' 1 1 :=
  ⟨by rfl, rfl, by simp, rfl,
    dense_block_indices envW ["a.md"] [] []
      (compileTheBlocks envW [⟨"a.md", 1, "const x = 1", "const x = 1"⟩])
      "a.md" ["const x = 1"] (by rfl) rfl (by simp) (by simp) rfl⟩

/-- C8: the localiser rewrites exactly the whole-specifier matches — the
declared name itself (scoped or not) to the entry point, the name plus
`/sub/path` to the sub-path under the package root — leaves
prefix-sharing specifiers alone, and returns code with no matching
specifier unchanged. -/
theorem substitute_whole_specifier_only (sub : LocalImportSubstituter)
    (s : String) (rest : List Char) (code : List CodeLine)
    (hs : s ≠ sub.packageName)
    (hp : (sub.packageName.data ++ ['/']).isPrefixOf s.data = false)
    (hcode : ∀ t, CodeLine.importLine t ∈ code → substituteSpecifier sub t = t) :
    substituteSpecifier sub sub.packageName = sub.entryPointPath
    ∧ substituteSpecifier sub (String.mk (sub.packageName.data ++ '/' :: rest)) =
        String.mk (sub.packageRoot.data ++ '/' :: rest)
    ∧ substituteSpecifier sub s = s
    ∧ (∀ extra : List Char, extra ≠ [] → extra.head? ≠ some '/' →
        substituteSpecifier sub (String.mk (sub.packageName.data ++ extra)) =
          String.mk (sub.packageName.data ++ extra))
    ∧ substituteLocalPackageImports sub code = code := by
  refine ⟨?_, ?_, ?_, ?_, ?_⟩
  · simp [substituteSpecifier]
  · have hne : String.mk (sub.packageName.data ++ '/' :: rest) ≠ sub.packageName := by
      intro h
      have hd := congrArg String.data h
      have hlen := congrArg List.length hd
      simp at hlen
    have hpre : (sub.packageName.data ++ ['/']).isPrefixOf
        (String.mk (sub.packageName.data ++ '/' :: rest)).data = true := by
      apply Iff.mpr List.isPrefixOf_iff_prefix
      exact ⟨rest, by simp⟩
    rw [substituteSpecifier, if_neg hne, if_pos hpre]
    congr 1
    have hdrop : (sub.packageName.data ++ '/' :: rest).drop
        (sub.packageName.data.length + 1) = rest := by
      have : sub.packageName.data ++ '/' :: rest =
          (sub.packageName.data ++ ['/']) ++ rest := by simp
      rw [this]
      have hlen : (sub.packageName.data ++ ['/']).length =
          sub.packageName.data.length + 1 := by simp
      rw [← hlen]
      exact List.drop_left _ _
    rw [hdrop]
  · rw [substituteSpecifier, if_neg hs, hp]
    simp
  · intro extra hne hhead
    have hne2 : String.mk (sub.packageName.data ++ extra) ≠ sub.packageName := by
      intro h
      have hd := congrArg String.data h
      have hlen := congrArg List.length hd
      simp at hlen
      exact hne hlen
    have hpre2 : (sub.packageName.data ++ ['/']).isPrefixOf
        (String.mk (sub.packageName.data ++ extra)).data = false := by
      apply Bool.eq_false_iff.mpr
      intro hcontra
      have := Iff.mp List.isPrefixOf_iff_prefix hcontra
      obtain ⟨t, ht⟩ := this
      rw [List.append_assoc] at ht
      have := List.append_cancel_left ht
      cases extra with
      | nil => exact hne rfl
      | cons e es =>
        simp only [List.singleton_append, List.cons.injEq] at this
        exact hhead (by simp [← this.1])
    rw [substituteSpecifier, if_neg hne2, hpre2]
    simp
  · have haux : ∀ l : List CodeLine,
        (∀ t, CodeLine.importLine t ∈ l → substituteSpecifier sub t = t) →
        substituteLocalPackageImports sub l = l := by
      intro l
      induction l with
      | nil => intro _; rfl
      | cons line rest ih =>
        intro hl
        have h2 := ih (fun t ht => hl t (List.mem_cons_of_mem _ ht))
        cases line with
        | importLine t =>
          show CodeLine.importLine (substituteSpecifier sub t) ::
              substituteLocalPackageImports sub rest = CodeLine.importLine t :: rest
          rw [h2, hl t (List.mem_cons_self _ _)]
        | textLine t =>
          show CodeLine.textLine t :: substituteLocalPackageImports sub rest =
              CodeLine.textLine t :: rest
          rw [h2]
    exact haux code hcode

theorem substitute_whole_specifier_only_witness :
    ("@my/pkg-extra" : String) ≠ "@my/pkg"
    ∧ (("@my/pkg" : String).data ++ ['/']).isPrefixOf ("@my/pkg-extra" : String).data = false
    ∧ substituteSpecifier ⟨"@my/pkg", "./index.ts", "."⟩ "@my/pkg-extra" = "@my/pkg-extra" :=
  ⟨by decide, by decide,
    (substitute_whole_specifier_only ⟨"@my/pkg", "./index.ts", "."⟩ "@my/pkg-extra"
      ("lib/util".data) [CodeLine.textLine "const x = 1"] (by decide) (by decide)
      (by intro t ht; simp at ht)).2.2.1⟩

/-! ## Order of `linesWithErrors`

`[...new Set(l)]` in JavaScript enumerates the set in insertion order:
duplicates removed, first occurrences kept, in the order the diagnostic
text mentioned them.  `dedupFirst` is that description written directly
(`fuel` bounds the recursion); the lemmas identify it with the
`insertNew` fold of the embedding. -/

def dedupFirstAux : Nat → List Nat → List Nat
  | _, [] => []
  | 0, _ :: _ => []
  | fuel + 1, n :: ns => n :: dedupFirstAux fuel (ns.filter fun x => decide (x ≠ n))

/-- Duplicates removed, keeping first occurrences in their order. -/
def dedupFirst (l : List Nat) : List Nat := dedupFirstAux l.length l

theorem dedupFirstAux_congr : ∀ (bound f1 f2 : Nat) (l : List Nat),
    l.length ≤ f1 → l.length ≤ f2 → l.length ≤ bound →
    dedupFirstAux f1 l = dedupFirstAux f2 l := by
  intro bound
  induction bound with
  | zero =>
    intro f1 f2 l _ _ hb
    have : l = [] := List.length_eq_zero.mp (Nat.le_zero.mp hb)
    subst this
    cases f1 <;> cases f2 <;> rfl
  | succ b ih =>
    intro f1 f2 l h1 h2 hb
    cases l with
    | nil => cases f1 <;> cases f2 <;> rfl
    | cons n ns =>
      cases f1 with
      | zero => simp at h1
      | succ g1 =>
        cases f2 with
        | zero => simp at h2
        | succ g2 =>
          simp only [dedupFirstAux, List.cons.injEq, true_and]
          have hflt : (ns.filter fun x => decide (x ≠ n)).length ≤ ns.length :=
            List.length_filter_le _ _
          exact ih g1 g2 _ (by simp at h1; omega) (by simp at h2; omega)
            (by simp at hb; omega)

theorem dedupFirst_cons (n : Nat) (ns : List Nat) :
    dedupFirst (n :: ns) = n :: dedupFirst (ns.filter fun x => decide (x ≠ n)) := by
  unfold dedupFirst
  simp only [List.length_cons, dedupFirstAux, List.cons.injEq, true_and]
  exact dedupFirstAux_congr ns.length ns.length _ _ (List.length_filter_le _ _)
    (Nat.le_refl _) (List.length_filter_le _ _)

theorem mem_dedupFirstAux : ∀ (fuel : Nat) (l : List Nat) (x : Nat),
    x ∈ dedupFirstAux fuel l → x ∈ l := by
  intro fuel
  induction fuel with
  | zero =>
    intro l x hx
    cases l <;> simp [dedupFirstAux] at hx
  | succ f ih =>
    intro l x hx
    cases l with
    | nil => simp [dedupFirstAux] at hx
    | cons n ns =>
      simp only [dedupFirstAux, List.mem_cons] at hx
      rcases hx with hx | hx
      · simp [hx]
      · have := ih _ _ hx
        have := List.mem_of_mem_filter this
        simp [this]

theorem dedupFirst_nodup : ∀ (bound : Nat) (l : List Nat), l.length ≤ bound →
    (dedupFirst l).Nodup := by
  intro bound
  induction bound with
  | zero =>
    intro l hb
    have : l = [] := List.length_eq_zero.mp (Nat.le_zero.mp hb)
    subst this
    exact List.nodup_nil
  | succ b ih =>
    intro l hb
    cases l with
    | nil => exact List.nodup_nil
    | cons n ns =>
      rw [dedupFirst_cons]
      apply List.Nodup.cons
      · intro hmem
        have h1 := mem_dedupFirstAux _ _ _ hmem
        have h2 := List.of_mem_filter h1
        simp at h2
      · apply ih
        have := List.length_filter_le (fun x => decide (x ≠ n)) ns
        simp at hb
        omega

theorem mem_dedupFirst : ∀ (bound : Nat) (l : List Nat), l.length ≤ bound →
    ∀ x, x ∈ dedupFirst l ↔ x ∈ l := by
  intro bound
  induction bound with
  | zero =>
    intro l hb x
    have : l = [] := List.length_eq_zero.mp (Nat.le_zero.mp hb)
    subst this
    rfl
  | succ b ih =>
    intro l hb x
    cases l with
    | nil => rfl
    | cons n ns =>
      rw [dedupFirst_cons]
      simp only [List.mem_cons]
      constructor
      · rintro (hx | hx)
        · exact Or.inl hx
        · have h1 := (ih _ (by
            have := List.length_filter_le (fun x => decide (x ≠ n)) ns
            simp at hb
            omega) x).mp hx
          exact Or.inr (List.mem_of_mem_filter h1)
      · rintro (hx | hx)
        · exact Or.inl hx
        · by_cases hxn : x = n
          · exact Or.inl hxn
          · right
            apply (ih _ (by
              have := List.length_filter_le (fun x => decide (x ≠ n)) ns
              simp at hb
              omega) x).mpr
            exact List.mem_filter_of_mem hx (by simp [hxn])

theorem foldl_insertNew_eq : ∀ (l acc : List Nat),
    l.foldl insertNew acc = acc ++ dedupFirst (l.filter fun x => decide (x ∉ acc)) := by
  intro l
  induction l with
  | nil =>
    intro acc
    simp [dedupFirst, dedupFirstAux]
  | cons n ns ih =>
    intro acc
    simp only [List.foldl_cons, List.filter_cons]
    by_cases hn : n ∈ acc
    · have hstep : insertNew acc n = acc := by simp [insertNew, hn]
      rw [hstep, ih acc]
      have hcond : decide (n ∉ acc) = false := by simp [hn]
      rw [hcond]
      simp
    · have hstep : insertNew acc n = acc ++ [n] := by simp [insertNew, hn]
      rw [hstep, ih (acc ++ [n])]
      have hcond : decide (n ∉ acc) = true := by simp [hn]
      rw [hcond]
      simp only [if_true, List.append_assoc, List.singleton_append]
      congr 1
      rw [dedupFirst_cons]
      congr 1
      rw [List.filter_filter]
      apply congrArg dedupFirst
      apply List.filter_congr
      intro x _
      by_cases hx1 : x ∈ acc
      · simp [hx1]
      · by_cases hx2 : x = n
        · simp [hx1, hx2]
        · simp [hx1, hx2]

theorem extractLinesWithErrors_eq_dedupFirst (diagnosticText : String) :
    extractLinesWithErrors diagnosticText =
      dedupFirst ((splitLines diagnosticText.data).filterMap findLineNumber) := by
  unfold extractLinesWithErrors
  rw [foldl_insertNew_eq]
  simp

/-- C3 counterexample: a diagnostic that names line 5 before line 2 gives
`linesWithErrors = [5, 2]`, which is not an ascending sequence. -/
theorem lines_with_errors_not_ascending :
    (testCodeCompilation
        (some (.tsError "boom" "x (5,1)\ny (2,1)" []))
        ⟨"README.md", 1, "s", "s"⟩).linesWithErrors = [5, 2]
    ∧ ¬ List.Sorted (· ≤ ·) ([5, 2] : List Nat) := by
  constructor
  · decide
  · decide

/-- C3 (amended): for a failed compilation carrying a compiler
diagnostic, `linesWithErrors` is the line numbers recovered per line of
the (scrubbed) diagnostic text by the dual-format match, deduplicated,
in order of first occurrence in the diagnostic text — not sorted
ascending. -/
theorem lines_with_errors_first_occurrence (ex : CodeBlock)
    (message diagnosticText : String) (props : List (String × String)) :
    (testCodeCompilation (some (.tsError message diagnosticText props)) ex).linesWithErrors =
      dedupFirst ((splitLines (removeTemporaryFilePaths diagnosticText ex).data).filterMap
        findLineNumber)
    ∧ (testCodeCompilation (some (.tsError message diagnosticText props))
        ex).linesWithErrors.Nodup
    ∧ (∀ n, n ∈ (testCodeCompilation (some (.tsError message diagnosticText props))
          ex).linesWithErrors ↔
        ∃ line ∈ splitLines (removeTemporaryFilePaths diagnosticText ex).data,
          findLineNumber line = some n) := by
  have hmain : (testCodeCompilation (some (.tsError message diagnosticText props))
      ex).linesWithErrors =
      dedupFirst ((splitLines (removeTemporaryFilePaths diagnosticText ex).data).filterMap
        findLineNumber) := by
    show extractLinesWithErrors (removeTemporaryFilePaths diagnosticText ex) = _
    exact extractLinesWithErrors_eq_dedupFirst _
  refine ⟨hmain, ?_, ?_⟩
  · rw [hmain]
    exact dedupFirst_nodup _ _ (Nat.le_refl _)
  · intro n
    rw [hmain, mem_dedupFirst _ _ (Nat.le_refl _) n, List.mem_filterMap]

/-! ## Structure of the scrub replacement (claim C4) -/

theorem dropLit_self_append : ∀ p r : List Char, dropLit p (p ++ r) = some r := by
  intro p
  induction p with
  | nil => intro r; rfl
  | cons c cs ih =>
    intro r
    simp only [List.cons_append, dropLit, if_pos rfl]
    exact ih r

theorem takeDigits_append (ds r : List Char)
    (hds : ∀ c ∈ ds, isAsciiDigit c = true)
    (hr : ∀ c cs, r = c :: cs → isAsciiDigit c = false) :
    takeDigits (ds ++ r) = (ds, r) := by
  induction ds with
  | nil =>
    cases hc : r with
    | nil => rfl
    | cons c cs =>
      simp only [List.nil_append, hc, takeDigits, hr c cs hc]
      rfl
  | cons d ds2 ih =>
    have hd : isAsciiDigit d = true := hds d (by simp)
    simp only [List.cons_append, takeDigits, hd, if_true, List.append_eq]
    rw [ih (fun c hc => hds c (by simp [hc]))]

theorem ts_chars : (".ts" : String).data = ['.', 't', 's'] := by decide

theorem matchScrubTail_marker (ds suf : List Char) (hne : ds ≠ [])
    (hdig : ∀ c ∈ ds, isAsciiDigit c = true) :
    matchScrubTail (compiledDocsPathMarker ++ (ds ++ '.' :: 't' :: 's' :: suf)) =
      some suf := by
  have ht : takeDigits (ds ++ '.' :: 't' :: 's' :: suf) =
      (ds, '.' :: 't' :: 's' :: suf) := by
    apply takeDigits_append _ _ hdig
    intro c cs hc
    injection hc with hc1 _
    rw [← hc1]
    decide
  unfold matchScrubTail
  rw [dropLit_self_append, Option.some_bind, ht]
  simp only [List.isEmpty_iff]
  rw [if_neg hne]
  exact dropLit_self_append ['.', 't', 's'] suf

theorem matchScrubTail_nil : matchScrubTail [] = none := by decide

theorem matchScrubTail_cons_ne (c : Char) (l : List Char) (h : c ≠ '/') :
    matchScrubTail (c :: l) = none := by
  unfold matchScrubTail
  rw [compiledDocsPathMarker_chars]
  simp [dropLit, if_neg h]

theorem matchScrubTail_slash_b (l : List Char) :
    matchScrubTail ('/' :: 'b' :: l) = none := by
  unfold matchScrubTail
  rw [compiledDocsPathMarker_chars]
  simp [dropLit]

theorem digit_ne_slash (c : Char) (h : isAsciiDigit c = true) : c ≠ '/' := by
  intro heq
  subst heq
  exact absurd h (by decide)

theorem lastScrubMatch_none : ∀ l : List Char,
    (∀ s, s <:+ l → matchScrubTail s = none) → lastScrubMatch l = none := by
  intro l
  induction l with
  | nil => intro _; rfl
  | cons c cs ih =>
    intro h
    have hcs : lastScrubMatch cs = none :=
      ih (fun s hs => h s (hs.trans (List.suffix_cons c cs)))
    show (match lastScrubMatch cs with
      | some r => some r
      | none => matchScrubTail (c :: cs)) = none
    rw [hcs]
    exact h (c :: cs) (List.suffix_refl _)

theorem lastScrubMatch_none_cons (c : Char) (l : List Char)
    (h1 : matchScrubTail (c :: l) = none) (h2 : lastScrubMatch l = none) :
    lastScrubMatch (c :: l) = none := by
  show (match lastScrubMatch l with
    | some r => some r
    | none => matchScrubTail (c :: l)) = none
  rw [h2, h1]

theorem lastScrubMatch_append_some : ∀ (pre rest : List Char) (r : List Char),
    lastScrubMatch rest = some r → lastScrubMatch (pre ++ rest) = some r := by
  intro pre
  induction pre with
  | nil => intro rest r h; exact h
  | cons c cs ih =>
    intro rest r h
    have h2 := ih rest r h
    show (match lastScrubMatch (cs ++ rest) with
      | some r2 => some r2
      | none => matchScrubTail (c :: (cs ++ rest))) = some r
    rw [h2]

theorem tailNoMatch (ds suf : List Char)
    (hdig : ∀ c ∈ ds, isAsciiDigit c = true)
    (hsuf : ∀ s, s <:+ suf → matchScrubTail s = none) :
    ∀ s, s <:+ (ds ++ '.' :: 't' :: 's' :: suf) → matchScrubTail s = none := by
  induction ds with
  | nil =>
    intro s hs
    simp only [List.nil_append] at hs
    rcases List.suffix_cons_iff.mp hs with rfl | hs
    · exact matchScrubTail_cons_ne _ _ (by decide)
    rcases List.suffix_cons_iff.mp hs with rfl | hs
    · exact matchScrubTail_cons_ne _ _ (by decide)
    rcases List.suffix_cons_iff.mp hs with rfl | hs
    · exact matchScrubTail_cons_ne _ _ (by decide)
    exact hsuf s hs
  | cons d ds2 ih =>
    intro s hs
    simp only [List.cons_append] at hs
    rcases List.suffix_cons_iff.mp hs with rfl | hs
    · exact matchScrubTail_cons_ne _ _ (digit_ne_slash d (hdig d (by simp)))
    · exact ih (fun c hc => hdig c (by simp [hc])) s hs

theorem lastScrubMatch_at_marker (ds suf : List Char) (hne : ds ≠ [])
    (hdig : ∀ c ∈ ds, isAsciiDigit c = true)
    (hsuf : ∀ s, s <:+ suf → matchScrubTail s = none) :
    lastScrubMatch (compiledDocsPathMarker ++ (ds ++ '.' :: 't' :: 's' :: suf)) = some suf := by
  have h0 : lastScrubMatch (ds ++ '.' :: 't' :: 's' :: suf) = none :=
    lastScrubMatch_none _ (tailNoMatch ds suf hdig hsuf)
  have h1 : lastScrubMatch ('-' :: (ds ++ '.' :: 't' :: 's' :: suf)) = none :=
    lastScrubMatch_none_cons _ _ (matchScrubTail_cons_ne _ _ (by decide)) h0
  have h2 : lastScrubMatch ('k' :: '-' :: (ds ++ '.' :: 't' :: 's' :: suf)) = none :=
    lastScrubMatch_none_cons _ _ (matchScrubTail_cons_ne _ _ (by decide)) h1
  have h3 : lastScrubMatch ('c' :: 'k' :: '-' :: (ds ++ '.' :: 't' :: 's' :: suf)) = none :=
    lastScrubMatch_none_cons _ _ (matchScrubTail_cons_ne _ _ (by decide)) h2
  have h4 : lastScrubMatch ('o' :: 'c' :: 'k' :: '-' :: (ds ++ '.' :: 't' :: 's' :: suf)) = none :=
    lastScrubMatch_none_cons _ _ (matchScrubTail_cons_ne _ _ (by decide)) h3
  have h5 : lastScrubMatch ('l' :: 'o' :: 'c' :: 'k' :: '-' :: (ds ++ '.' :: 't' :: 's' :: suf)) = none :=
    lastScrubMatch_none_cons _ _ (matchScrubTail_cons_ne _ _ (by decide)) h4
  have h6 : lastScrubMatch ('b' :: 'l' :: 'o' :: 'c' :: 'k' :: '-' :: (ds ++ '.' :: 't' :: 's' :: suf)) = none :=
    lastScrubMatch_none_cons _ _ (matchScrubTail_cons_ne _ _ (by decide)) h5
  have h7 : lastScrubMatch ('/' :: 'b' :: 'l' :: 'o' :: 'c' :: 'k' :: '-' :: (ds ++ '.' :: 't' :: 's' :: suf)) = none :=
    lastScrubMatch_none_cons _ _ (matchScrubTail_slash_b _) h6
  have h8 : lastScrubMatch ('s' :: '/' :: 'b' :: 'l' :: 'o' :: 'c' :: 'k' :: '-' :: (ds ++ '.' :: 't' :: 's' :: suf)) = none :=
    lastScrubMatch_none_cons _ _ (matchScrubTail_cons_ne _ _ (by decide)) h7
  have h9 : lastScrubMatch ('c' :: 's' :: '/' :: 'b' :: 'l' :: 'o' :: 'c' :: 'k' :: '-' :: (ds ++ '.' :: 't' :: 's' :: suf)) = none :=
    lastScrubMatch_none_cons _ _ (matchScrubTail_cons_ne _ _ (by decide)) h8
  have h10 : lastScrubMatch ('o' :: 'c' :: 's' :: '/' :: 'b' :: 'l' :: 'o' :: 'c' :: 'k' :: '-' :: (ds ++ '.' :: 't' :: 's' :: suf)) = none :=
    lastScrubMatch_none_cons _ _ (matchScrubTail_cons_ne _ _ (by decide)) h9
  have h11 : lastScrubMatch ('d' :: 'o' :: 'c' :: 's' :: '/' :: 'b' :: 'l' :: 'o' :: 'c' :: 'k' :: '-' :: (ds ++ '.' :: 't' :: 's' :: suf)) = none :=
    lastScrubMatch_none_cons _ _ (matchScrubTail_cons_ne _ _ (by decide)) h10
  have h12 : lastScrubMatch ('-' :: 'd' :: 'o' :: 'c' :: 's' :: '/' :: 'b' :: 'l' :: 'o' :: 'c' :: 'k' :: '-' :: (ds ++ '.' :: 't' :: 's' :: suf)) = none :=
    lastScrubMatch_none_cons _ _ (matchScrubTail_cons_ne _ _ (by decide)) h11
  have h13 : lastScrubMatch ('d' :: '-' :: 'd' :: 'o' :: 'c' :: 's' :: '/' :: 'b' :: 'l' :: 'o' :: 'c' :: 'k' :: '-' :: (ds ++ '.' :: 't' :: 's' :: suf)) = none :=
    lastScrubMatch_none_cons _ _ (matchScrubTail_cons_ne _ _ (by decide)) h12
  have h14 : lastScrubMatch ('e' :: 'd' :: '-' :: 'd' :: 'o' :: 'c' :: 's' :: '/' :: 'b' :: 'l' :: 'o' :: 'c' :: 'k' :: '-' :: (ds ++ '.' :: 't' :: 's' :: suf)) = none :=
    lastScrubMatch_none_cons _ _ (matchScrubTail_cons_ne _ _ (by decide)) h13
  have h15 : lastScrubMatch ('l' :: 'e' :: 'd' :: '-' :: 'd' :: 'o' :: 'c' :: 's' :: '/' :: 'b' :: 'l' :: 'o' :: 'c' :: 'k' :: '-' :: (ds ++ '.' :: 't' :: 's' :: suf)) = none :=
    lastScrubMatch_none_cons _ _ (matchScrubTail_cons_ne _ _ (by decide)) h14
  have h16 : lastScrubMatch ('i' :: 'l' :: 'e' :: 'd' :: '-' :: 'd' :: 'o' :: 'c' :: 's' :: '/' :: 'b' :: 'l' :: 'o' :: 'c' :: 'k' :: '-' :: (ds ++ '.' :: 't' :: 's' :: suf)) = none :=
    lastScrubMatch_none_cons _ _ (matchScrubTail_cons_ne _ _ (by decide)) h15
  have h17 : lastScrubMatch ('p' :: 'i' :: 'l' :: 'e' :: 'd' :: '-' :: 'd' :: 'o' :: 'c' :: 's' :: '/' :: 'b' :: 'l' :: 'o' :: 'c' :: 'k' :: '-' :: (ds ++ '.' :: 't' :: 's' :: suf)) = none :=
    lastScrubMatch_none_cons _ _ (matchScrubTail_cons_ne _ _ (by decide)) h16
  have h18 : lastScrubMatch ('m' :: 'p' :: 'i' :: 'l' :: 'e' :: 'd' :: '-' :: 'd' :: 'o' :: 'c' :: 's' :: '/' :: 'b' :: 'l' :: 'o' :: 'c' :: 'k' :: '-' :: (ds ++ '.' :: 't' :: 's' :: suf)) = none :=
    lastScrubMatch_none_cons _ _ (matchScrubTail_cons_ne _ _ (by decide)) h17
  have h19 : lastScrubMatch ('o' :: 'm' :: 'p' :: 'i' :: 'l' :: 'e' :: 'd' :: '-' :: 'd' :: 'o' :: 'c' :: 's' :: '/' :: 'b' :: 'l' :: 'o' :: 'c' :: 'k' :: '-' :: (ds ++ '.' :: 't' :: 's' :: suf)) = none :=
    lastScrubMatch_none_cons _ _ (matchScrubTail_cons_ne _ _ (by decide)) h18
  have h20 : lastScrubMatch ('c' :: 'o' :: 'm' :: 'p' :: 'i' :: 'l' :: 'e' :: 'd' :: '-' :: 'd' :: 'o' :: 'c' :: 's' :: '/' :: 'b' :: 'l' :: 'o' :: 'c' :: 'k' :: '-' :: (ds ++ '.' :: 't' :: 's' :: suf)) = none :=
    lastScrubMatch_none_cons _ _ (matchScrubTail_cons_ne _ _ (by decide)) h19
  rw [compiledDocsPathMarker_chars]
  simp only [List.cons_append, List.nil_append]
  show (match lastScrubMatch ('c' :: 'o' :: 'm' :: 'p' :: 'i' :: 'l' :: 'e' :: 'd' :: '-' :: 'd' :: 'o' :: 'c' :: 's' :: '/' :: 'b' :: 'l' :: 'o' :: 'c' :: 'k' :: '-' :: (ds ++ '.' :: 't' :: 's' :: suf)) with
    | some r => some r
    | none => matchScrubTail ('/' :: 'c' :: 'o' :: 'm' :: 'p' :: 'i' :: 'l' :: 'e' :: 'd' :: '-' :: 'd' :: 'o' :: 'c' :: 's' :: '/' :: 'b' :: 'l' :: 'o' :: 'c' :: 'k' :: '-' :: (ds ++ '.' :: 't' :: 's' :: suf))) = some suf
  rw [h20]
  have hm := matchScrubTail_marker ds suf hne hdig
  rw [compiledDocsPathMarker_chars] at hm
  simp only [List.cons_append, List.nil_append] at hm
  exact hm

theorem scrubLine_structured (label pre ds suf : List Char)
    (hne : ds ≠ []) (hdig : ∀ c ∈ ds, isAsciiDigit c = true)
    (hsuf : ∀ s, s <:+ suf → matchScrubTail s = none) :
    scrubLine label (pre ++ (compiledDocsPathMarker ++ (ds ++ '.' :: 't' :: 's' :: suf))) =
      label ++ suf := by
  unfold scrubLine
  rw [lastScrubMatch_append_some pre _ suf (lastScrubMatch_at_marker ds suf hne hdig hsuf)]

theorem splitLinesAux_no_newline : ∀ (cs acc : List Char), '\n' ∉ cs →
    splitLinesAux acc cs = [acc.reverse ++ cs] := by
  intro cs
  induction cs with
  | nil =>
    intro acc _
    simp [splitLinesAux]
  | cons c cs2 ih =>
    intro acc hn
    have hc : c ≠ '\n' := fun h => hn (by simp [h])
    simp only [splitLinesAux, if_neg hc]
    rw [ih (c :: acc) (fun h => hn (by simp [h]))]
    simp

theorem splitLines_no_newline (cs : List Char) (h : '\n' ∉ cs) :
    splitLines cs = [cs] := by
  unfold splitLines
  rw [splitLinesAux_no_newline cs [] h]
  simp

theorem mem_of_getLastQ (l : List Char) (x : Char) (h : l.getLast? = some x) : x ∈ l := by
  have hx : x ∈ l.getLast? := by rw [h]; rfl
  obtain ⟨hne, hx2⟩ := List.mem_getLast?_eq_getLast hx
  rw [hx2]
  exact List.getLast_mem hne

theorem mem_of_hasSub (pat l : List Char) (h : hasSub pat l = true) :
    ∀ c ∈ pat, c ∈ l := by
  obtain ⟨s, t, hst⟩ := (hasSub_iff pat l).mp h
  intro c hc
  rw [hst]
  simp [hc]

theorem mid_getLast : (" → Code Block " : String).data.getLast? = some ' ' := by decide

theorem space_not_in_block_dash : ¬ (' ' ∈ ("block-" : String).data) := by decide

theorem block_dash_no_digit :
    ∀ c ∈ ("block-" : String).data, ¬(48 ≤ c.toNat ∧ c.toNat ≤ 57) := by decide

theorem block_dash_not_in_mid :
    hasSub ("block-" : String).data (" → Code Block " : String).data = false := by decide

theorem mid_head_cons : ∃ q, (" → Code Block " : String).data = ' ' :: q := by
  exact ⟨"→ Code Block ".data, by decide⟩

/-- The scrubbed label followed by a clean tail contains no occurrence of
the internal prefix `block-`, provided neither the document name nor the
tail contains one. -/
theorem no_block_dash_in_label_suf (ex : CodeBlock) (suf : List Char)
    (hfileb : hasSub ("block-" : String).data ex.file.data = false)
    (hsufb : hasSub ("block-" : String).data suf = false) :
    hasSub ("block-" : String).data ((blockLabel ex).data ++ suf) = false := by
  apply Bool.eq_false_iff.mpr
  intro hcontra
  have hlabel : (blockLabel ex).data =
      ex.file.data ++ ((" → Code Block " : String).data ++ (natRepr ex.index).data) := by
    simp [blockLabel, String.data_append]
  rw [hlabel, List.append_assoc, List.append_assoc] at hcontra
  set pat := ("block-" : String).data with hpat
  set M := (" → Code Block " : String).data with hM
  set R := (natRepr ex.index).data with hR
  rcases hasSub_append pat ex.file.data (M ++ (R ++ suf)) hcontra with
    h | h | ⟨p1, p2, hsplit, hp1, hp2, hp1s, hp2p⟩
  · rw [hfileb] at h
    exact Bool.false_ne_true h
  · rcases hasSub_append pat M (R ++ suf) h with
      h2 | h2 | ⟨p1, p2, hsplit, hp1, hp2, hp1s, hp2p⟩
    · rw [block_dash_not_in_mid] at h2
      exact Bool.false_ne_true h2
    · rcases hasSub_append pat R suf h2 with
        h3 | h3 | ⟨p1, p2, hsplit, hp1, hp2, hp1s, hp2p⟩
      · have hb : 'b' ∈ R := mem_of_hasSub pat R h3 'b' (by decide)
        have := natRepr_all_digits ex.index 'b' hb
        revert this
        decide
      · rw [hsufb] at h3
        exact Bool.false_ne_true h3
      · cases hc : p1 with
        | nil => exact hp1 hc
        | cons c q =>
          have hcR : c ∈ R := hp1s.subset (by simp [hc])
          have hcp : c ∈ pat := by
            rw [hsplit, hc]
            simp
          have hdigc := natRepr_all_digits ex.index c hcR
          exact block_dash_no_digit c hcp hdigc
    · have hsp : ' ' ∈ p1 := by
        obtain ⟨t, ht⟩ := hp1s
        have h4 := congrArg List.getLast? ht
        rw [List.getLast?_append, hM, mid_getLast] at h4
        cases hg : p1.getLast? with
        | none =>
          exact absurd (List.getLast?_eq_none_iff.mp hg) hp1
        | some x =>
          rw [hg] at h4
          simp only [Option.or_some] at h4
          have hx : x = ' ' := by
            have := h4
            simp at this
            exact this
          exact mem_of_getLastQ p1 ' ' (by rw [hg, hx])
      have hsp2 : ' ' ∈ pat := by
        rw [hsplit]
        exact List.mem_append_left _ hsp
      exact space_not_in_block_dash hsp2
  · have hsp : ' ' ∈ p2 := by
      obtain ⟨q, hq⟩ := mid_head_cons
      have hM2 : M ++ (R ++ suf) = ' ' :: (q ++ (R ++ suf)) := by
        rw [hM, hq]
        rfl
      rw [hM2] at hp2p
      obtain ⟨q2, hq2⟩ := head_of_prefix_cons p2 ' ' _ hp2p hp2
      rw [hq2]
      simp
    have hsp2 : ' ' ∈ pat := by
      rw [hsplit]
      exact List.mem_append_right _ hsp
    exact space_not_in_block_dash hsp2

theorem mid_split : (" → Code Block " : String).data =
    (" → " : String).data ++ ("Code Block " : String).data := by decide

/-- C4: scrubbing a single-line diagnostic text that embeds a temporary
path `<anything>/compiled-docs/block-<digits>.ts` replaces the whole
matched stretch with the label `<file> → Code Block <index>`; the
scrubbed text contains the document name and `Code Block <index>` and —
when neither the document name nor the surrounding text carries it — no
occurrence of the internal prefix `block-`; the scrub is applied to the
message and to every string-valued property of the error object. -/
theorem scrubbed_error_text (ex : CodeBlock) (pre ds suf : List Char)
    (message diagnosticText : String) (props : List (String × String))
    (hne : ds ≠ []) (hdig : ∀ c ∈ ds, isAsciiDigit c = true)
    (hpre : '\n' ∉ pre) (hsufn : '\n' ∉ suf)
    (hsuf : ∀ s, s <:+ suf → matchScrubTail s = none)
    (hfileb : hasSub ("block-" : String).data ex.file.data = false)
    (hsufb : hasSub ("block-" : String).data suf = false) :
    removeTemporaryFilePaths
        (String.mk (pre ++ (compiledDocsPathMarker ++ (ds ++ '.' :: 't' :: 's' :: suf))))
        ex =
      String.mk ((blockLabel ex).data ++ suf)
    ∧ hasSub ex.file.data ((blockLabel ex).data ++ suf) = true
    ∧ hasSub (("Code Block " : String).data ++ (natRepr ex.index).data)
        ((blockLabel ex).data ++ suf) = true
    ∧ hasSub ("block-" : String).data ((blockLabel ex).data ++ suf) = false
    ∧ scrubError ex (.tsError message diagnosticText props) =
        .tsError (removeTemporaryFilePaths message ex)
          (removeTemporaryFilePaths diagnosticText ex)
          (props.map fun p => (p.1, removeTemporaryFilePaths p.2 ex)) := by
  have hnl : '\n' ∉ (pre ++ (compiledDocsPathMarker ++ (ds ++ '.' :: 't' :: 's' :: suf))) := by
    intro hmem
    simp only [List.mem_append, List.mem_cons] at hmem
    rcases hmem with h | h | h | h | h | h | h
    · exact hpre h
    · revert h
      rw [compiledDocsPathMarker_chars]
      decide
    · exact absurd (hdig _ h) (by decide)
    · exact absurd h (by decide)
    · exact absurd h (by decide)
    · exact absurd h (by decide)
    · exact hsufn h
  refine ⟨?_, ?_, ?_, ?_, rfl⟩
  · show String.mk (joinLines
        ((splitLines (pre ++ (compiledDocsPathMarker ++ (ds ++ '.' :: 't' :: 's' :: suf)))).map
          (scrubLine (blockLabel ex).data))) = String.mk ((blockLabel ex).data ++ suf)
    rw [splitLines_no_newline _ hnl]
    simp only [List.map_cons, List.map_nil]
    rw [scrubLine_structured (blockLabel ex).data pre ds suf hne hdig hsuf]
    rfl
  · apply (hasSub_iff _ _).mpr
    exact ⟨[], (" → Code Block " : String).data ++ ((natRepr ex.index).data ++ suf),
      by simp [blockLabel, String.data_append]⟩
  · apply (hasSub_iff _ _).mpr
    refine ⟨ex.file.data ++ (" → " : String).data, suf, ?_⟩
    have hmid := mid_split
    simp only [blockLabel, String.data_append, List.append_assoc, hmid]
    simp only [List.cons_append, List.nil_append]
  · exact no_block_dash_in_label_suf ex suf hfileb hsufb

theorem scrubbed_error_text_witness :
    removeTemporaryFilePaths
        (String.mk ("Error in ".data ++ (compiledDocsPathMarker ++
          (['4', '2'] ++ '.' :: 't' :: 's' :: ":3:7 boom".data))))
        ⟨"README.md", 2, "snippet", "code"⟩ =
      String.mk ((blockLabel ⟨"README.md", 2, "snippet", "code"⟩).data ++ ":3:7 boom".data)
    ∧ hasSub ("block-" : String).data
        ((blockLabel ⟨"README.md", 2, "snippet", "code"⟩).data ++ ":3:7 boom".data) = false :=
  have hsuf : ∀ s, s <:+ (":3:7 boom" : String).data → matchScrubTail s = none :=
    fun s hs =>
      (by decide : ∀ s2 ∈ ((":3:7 boom" : String).data).tails, matchScrubTail s2 = none)
        s ((List.mem_tails s _).mpr hs)
  have T := scrubbed_error_text ⟨"README.md", 2, "snippet", "code"⟩
    ("Error in ".data) ['4', '2'] (":3:7 boom".data) "m" "d" []
    (by decide) (by decide) (by decide) (by decide) hsuf (by decide) (by decide)
  ⟨T.1, T.2.2.2.1⟩

end DocsVerifier
